import Mathlib

/-!
Verification of the RAGBase repository core against its specification.

Python strings are modelled as `List Char`.  The text chunker
(`src/app/utils/chunking.py`) delegates to langchain's
`RecursiveCharacterTextSplitter(chunk_size=1200, chunk_overlap=150,
separators=["\n\n", "\n", ".", " ", ""])` with the library defaults
`keep_separator=True`, `strip_whitespace=True` and `length_function=len`;
that splitter is embedded here operation by operation
(`_split_text_with_regex`, `_merge_splits`, `_split_text`).
-/

namespace RAGBase

/-- Characters removed by Python `str.strip()`: the characters for which
`str.isspace()` holds — the six ASCII whitespace characters, the
separators U+001C-U+001F, next line U+0085, no-break space U+00A0, Ogham
space mark U+1680, the spaces U+2000-U+200A, the line and paragraph
separators U+2028/U+2029, narrow no-break space U+202F, medium
mathematical space U+205F and ideographic space U+3000. -/
def pyIsSpace (c : Char) : Bool :=
  c = ' ' || c = '\t' || c = '\n' || c = '\r' || c = '\x0B' || c = '\x0C' ||
  c = '\x1C' || c = '\x1D' || c = '\x1E' || c = '\x1F' ||
  c = '\x85' || c = '\xA0' || c = '\u1680' ||
  c = '\u2000' || c = '\u2001' || c = '\u2002' || c = '\u2003' ||
  c = '\u2004' || c = '\u2005' || c = '\u2006' || c = '\u2007' ||
  c = '\u2008' || c = '\u2009' || c = '\u200A' ||
  c = '\u2028' || c = '\u2029' || c = '\u202F' || c = '\u205F' ||
  c = '\u3000'

/-- Trim the characters satisfying `p` from both ends of a string. -/
def trimWhile (p : Char → Bool) (l : List Char) : List Char :=
  ((l.dropWhile p).reverse.dropWhile p).reverse

/-- Python `str.strip()`: drop leading and trailing whitespace. -/
def pyStrip (l : List Char) : List Char := trimWhile pyIsSpace l

/-- Sum of the lengths of a list of strings (the running `total` of
`TextSplitter._merge_splits`, whose separator is `""` because
`keep_separator=True`). -/
def sumLens (l : List (List Char)) : Nat := (l.map List.length).sum

/-- Leftmost occurrence of `sep` in `text`: the part strictly before the
match and the part strictly after it.  This is the split point used by
`re.split` on the escaped literal separator. -/
def findSplit (sep : List Char) : List Char → Option (List Char × List Char)
  | [] => none
  | c :: rest =>
    if sep.isPrefixOf (c :: rest) then some ([], (c :: rest).drop sep.length)
    else (findSplit sep rest).map (fun pq => (c :: pq.1, pq.2))

theorem isPrefixOf_exists :
    ∀ s l : List Char, s.isPrefixOf l = true → ∃ t, s ++ t = l := by
  intro s
  induction s with
  | nil => intro l _; exact ⟨l, rfl⟩
  | cons a str ih =>
    intro l h
    cases l with
    | nil => simp [List.isPrefixOf] at h
    | cons b t =>
      rw [List.isPrefixOf] at h
      simp only [Bool.and_eq_true, beq_iff_eq] at h
      obtain ⟨rfl, h2⟩ := h
      obtain ⟨u, hu⟩ := ih t h2
      exact ⟨u, by rw [List.cons_append, hu]⟩

theorem isPrefixOf_append_self :
    ∀ s t : List Char, s.isPrefixOf (s ++ t) = true := by
  intro s t
  induction s with
  | nil => simp [List.isPrefixOf]
  | cons a str ih =>
    rw [List.cons_append, List.isPrefixOf]
    simp [ih]

theorem findSplit_eq_append (sep : List Char) :
    ∀ (text : List Char) (pq : List Char × List Char),
      findSplit sep text = some pq → text = pq.1 ++ sep ++ pq.2 := by
  intro text
  induction text with
  | nil => intro pq h; simp [findSplit] at h
  | cons c rest ih =>
    intro pq h
    by_cases hp : sep.isPrefixOf (c :: rest)
    · rw [findSplit, if_pos hp] at h
      obtain ⟨t, ht⟩ := isPrefixOf_exists sep (c :: rest) hp
      injection h with h2
      subst h2
      simp only [List.nil_append]
      rw [← ht, List.drop_left]
    · rw [findSplit, if_neg hp] at h
      cases hfr : findSplit sep rest with
      | none => rw [hfr] at h; simp at h
      | some pq' =>
        rw [hfr] at h
        rw [Option.map_some'] at h
        injection h with h2
        subst h2
        simp [List.cons_append, List.append_assoc, ih pq' hfr]

theorem findSplit_post_lt (sep : List Char) (hse : sep ≠ []) :
    ∀ (text : List Char) (pq : List Char × List Char),
      findSplit sep text = some pq → pq.2.length < text.length := by
  intro text pq h
  have hd := findSplit_eq_append sep text pq h
  have : 0 < sep.length := List.length_pos.mpr hse
  rw [hd]
  simp only [List.length_append]
  omega

/-- Model of `re.split`: `splitParts sep text` gives the parts of `text` between the successive
non-overlapping leftmost occurrences of `sep` (the captureless entries of
`re.split(f"({re.escape(sep)})", text)`). -/
def splitParts (sep : List Char) (hse : sep ≠ []) (text : List Char) :
    List (List Char) :=
  match h : findSplit sep text with
  | none => [text]
  | some pq => pq.1 :: splitParts sep hse pq.2
termination_by text.length
decreasing_by exact findSplit_post_lt sep hse text _ h

/-- Model of `_split_text_with_regex(text, re.escape(sep), keep_separator=True)`:
the first part, then each later part with the separator re-attached in
front of it, empties filtered out. -/
def keepSepSplits (sep : List Char) (hse : sep ≠ []) (text : List Char) :
    List (List Char) :=
  (match splitParts sep hse text with
   | [] => []
   | p :: ps => p :: ps.map (fun q => sep ++ q)).filter (fun s => !s.isEmpty)

/-- Model of `re.search` on the escaped literal separator. -/
def occursIn (sep text : List Char) : Bool := (findSplit sep text).isSome

/-- The separator-selection loop at the top of
`RecursiveCharacterTextSplitter._split_text`: take the first separator that
is empty or occurs in the text, together with the remaining separator list. -/
def chooseGo (text : List Char) : List (List Char) → Option (List Char × List (List Char))
  | [] => none
  | s :: rest =>
    if s = [] then some ([], [])
    else if occursIn s text then some (s, rest)
    else chooseGo text rest

/-- Chosen separator and `new_separators`; when no separator matches the
loop leaves `separator = separators[-1]` and `new_separators = []`. -/
def chooseSep (seps : List (List Char)) (text : List Char) :
    List Char × List (List Char) :=
  (chooseGo text seps).getD (seps.getLastD [], [])

/-- Model of `TextSplitter._join_docs(docs, separator="")` with
`strip_whitespace=True`: concatenate, strip, and drop the chunk when the
stripped text is empty. -/
def joinDocs (cur : List (List Char)) : Option (List Char) :=
  let t := pyStrip cur.flatten
  if t.isEmpty then none else some t

/-- The pop-while loop of `_merge_splits`: drop leading splits while the
running total exceeds the overlap, or while the incoming split would still
not fit.  `total` is always the sum of the lengths of `cur`. -/
def popLoop (dlen cs ov : Nat) : List (List Char) → List (List Char)
  | [] => []
  | c :: rest =>
    if sumLens (c :: rest) > ov ∨
        (sumLens (c :: rest) + dlen > cs ∧ sumLens (c :: rest) > 0) then
      popLoop dlen cs ov rest
    else c :: rest

/-- Main loop of `TextSplitter._merge_splits` (separator `""`), carrying the
current accumulated document `cur`. -/
def mergeLoop (cs ov : Nat) : List (List Char) → List (List Char) → List (List Char)
  | cur, [] => (joinDocs cur).toList
  | cur, d :: ds =>
    if sumLens cur + d.length > cs then
      if cur.isEmpty then mergeLoop cs ov [d] ds
      else (joinDocs cur).toList ++ mergeLoop cs ov (popLoop d.length cs ov cur ++ [d]) ds
    else mergeLoop cs ov (cur ++ [d]) ds

/-- Model of `TextSplitter._merge_splits(splits, separator="")`. -/
def mergeSplits (cs ov : Nat) (splits : List (List Char)) : List (List Char) :=
  mergeLoop cs ov [] splits

/-- The good/bad split loop of `RecursiveCharacterTextSplitter._split_text`:
splits shorter than the chunk size are accumulated and merged; a split at
least as long as the chunk size first flushes the accumulated good splits,
then is handled by `f` (recursion into the finer separators, or emitted
as-is when no separator remains). -/
def processLoop (cs ov : Nat) (f : List Char → List (List Char)) :
    List (List Char) → List (List Char) → List (List Char)
  | goods, [] => if goods.isEmpty then [] else mergeSplits cs ov goods
  | goods, s :: rest =>
    if s.length < cs then processLoop cs ov f (goods ++ [s]) rest
    else
      (if goods.isEmpty then [] else mergeSplits cs ov goods) ++ f s ++
        processLoop cs ov f [] rest

theorem chooseGo_snd_length_lt (text : List Char) :
    ∀ (seps : List (List Char)) (p : List Char × List (List Char)),
      chooseGo text seps = some p → p.2 ≠ [] → p.2.length < seps.length := by
  intro seps
  induction seps with
  | nil => intro p h; simp [chooseGo] at h
  | cons s rest ih =>
    intro p h hne
    rw [chooseGo] at h
    by_cases hs : s = []
    · rw [if_pos hs] at h; cases h; simp at hne
    · rw [if_neg hs] at h
      by_cases ho : occursIn s text
      · simp only [ho, if_true] at h
        cases h
        simp
      · simp only [ho] at h
        rw [if_neg (by simp)] at h
        have := ih p h hne
        simp only [List.length_cons]
        omega

theorem chooseSep_snd_length_lt (seps : List (List Char)) (text : List Char)
    (h : (chooseSep seps text).2 ≠ []) :
    (chooseSep seps text).2.length < seps.length := by
  unfold chooseSep at h ⊢
  revert h
  cases hg : chooseGo text seps with
  | none => intro h; simp at h
  | some p =>
    intro h
    simp only [Option.getD_some] at h ⊢
    exact chooseGo_snd_length_lt text seps p hg h

/-- Model of `RecursiveCharacterTextSplitter._split_text(text, separators)`. -/
def splitTextRec (cs ov : Nat) (seps : List (List Char)) (text : List Char) :
    List (List Char) :=
  let sep := (chooseSep seps text).1
  let newSeps := (chooseSep seps text).2
  let splits :=
    if hse : sep = [] then text.map (fun c => [c])
    else keepSepSplits sep hse text
  let f :=
    if h : newSeps = [] then fun b => [b]
    else fun b => splitTextRec cs ov newSeps b
  processLoop cs ov f [] splits
termination_by seps.length
decreasing_by exact chooseSep_snd_length_lt seps text h

/-- The separator list passed in `src/app/utils/chunking.py`. -/
def chunkSeparators : List (List Char) := [['\n', '\n'], ['\n'], ['.'], [' '], []]

/-- Model of `chunk_texts` from `src/app/utils/chunking.py`:
`RecursiveCharacterTextSplitter(chunk_size=1200, chunk_overlap=150,
separators=["\n\n", "\n", ".", " ", ""]).split_text(text)`. -/
def chunk_texts (text : List Char) : List (List Char) :=
  splitTextRec 1200 150 chunkSeparators text

/-- Property that `chunks` reconstructs `s` from non-overlapping portions: some choice of
one portion per chunk — the whole first chunk, and for every later chunk a
suffix (what remains after removing the part overlapping its predecessor) —
concatenates exactly to `s`. -/
def ReconstructsFrom (chunks : List (List Char)) (s : List Char) : Prop :=
  ∃ trims : List (List Char),
    List.Forall₂ (fun t c => t <:+ c) trims chunks ∧
    trims.head? = chunks.head? ∧ trims.flatten = s

/-!
Collection-identifier derivation: `VectorStore._get_safe_collection_name`
(`src/app/services/vectorstore.py`).  The only external call,
`hashlib.md5(dir_name.encode("utf-8")).hexdigest()[:8]`, is taken as a
parameter `md5_8`; the theorems assume only what that truncation always
satisfies (8 characters, all from the lowercase hex alphabet, hence
alphanumeric).
-/

/-- Test for `[a-zA-Z0-9]`. -/
def isAlnumCh (c : Char) : Bool := c.isAlpha || c.isDigit

/-- Test for `[a-zA-Z0-9_]`. -/
def isWordCh (c : Char) : Bool := isAlnumCh c || c = '_'

/-- Model of `os.path.basename` (POSIX): the part after the last slash. -/
def basename (p : List Char) : List Char :=
  (p.reverse.takeWhile (fun c => c ≠ '/')).reverse

/-- Python `str.isascii()`. -/
def pyIsAsciiStr (l : List Char) : Bool := l.all (fun c => c.toNat < 128)

/-- Model of `re.sub(r'[^a-zA-Z0-9_]', '_', s)`. -/
def subNonWord (l : List Char) : List Char :=
  l.map (fun c => if isWordCh c then c else '_')

/-- Python `str.strip('_')`. -/
def stripUnderscore (l : List Char) : List Char :=
  trimWhile (fun c => c = '_') l

/-- Model of `re.sub(r'^[^a-zA-Z0-9]+', '', s)` followed by
`re.sub(r'[^a-zA-Z0-9]+$', '', s)`. -/
def dropEdgeNonAlnum (l : List Char) : List Char :=
  trimWhile (fun c => !isAlnumCh c) l

/-- Model of `VectorStore._get_safe_collection_name(persist_dir)`. -/
def _get_safe_collection_name (md5_8 : List Char → List Char)
    (persist_dir : List Char) : List Char :=
  let dir_name := basename persist_dir
  let s1 :=
    if !pyIsAsciiStr dir_name then 'k' :: 'b' :: '_' :: md5_8 dir_name
    else
      let t := stripUnderscore (subNonWord dir_name)
      if t.length < 2 then 'k' :: 'b' :: '_' :: md5_8 dir_name
      else 'k' :: 'b' :: '_' :: t
  let s2 := dropEdgeNonAlnum s1
  if s2.length < 3 then 'k' :: 'b' :: md5_8 dir_name
  else if s2.length > 512 then s2.take 500 ++ md5_8 dir_name
  else s2

/-- The regex of the claim, `^[a-zA-Z0-9][a-zA-Z0-9_]{1,510}[a-zA-Z0-9]$`:
length between 3 and 512, every character a word character, and the first
and last characters alphanumeric. -/
def matchesIdRegex (l : List Char) : Prop :=
  3 ≤ l.length ∧ l.length ≤ 512 ∧ (∀ c ∈ l, isWordCh c = true) ∧
    (∀ c ∈ l.head?, isAlnumCh c = true) ∧ (∀ c ∈ l.getLast?, isAlnumCh c = true)

/-!
Knowledge-base deletion: `KnowledgeBaseService.delete_kb`
(`src/app/services/kb.py`, lines 109-190), on the POSIX
(`os.name != 'nt'`) code path.  The filesystem is a predicate
`FS = List Char → Bool` giving `os.path.exists` for each path; every
fallible call (`shutil.rmtree`, the forced `chmod -R 777` subprocess) is an
environment-supplied step returning the next filesystem state and whether
it raised, so partial deletions and arbitrary failures are all covered.
-/

abbrev FS := List Char → Bool

inductive OpRes where
  | ok (fs : FS)
  | exn (fs : FS)

structure DelEnv where
  rmtreeRootTry : FS → OpRes
  rmtreeVecTry : FS → OpRes
  chmodRoot : FS → OpRes
  rmtreeRootForce : FS → OpRes
  chmodVec : FS → OpRes
  rmtreeVecForce : FS → OpRes

/-- Model of `os.path.join(a, b)` for a non-absolute second component. -/
def joinPath (a b : List Char) : List Char := a ++ '/' :: b

/-- Model of `KnowledgeBaseService.kb_root(name)`, i.e. `os.path.join(data_dir, "kb", name)`. -/
def kb_root (dataDir name : List Char) : List Char :=
  joinPath (joinPath dataDir ['k', 'b']) name

/-- Model of `KnowledgeBaseService.kb_vector_dir(name)`, i.e.
os.path.join(data_dir, "vectorstore", name)`. -/
def kb_vector_dir (dataDir name : List Char) : List Char :=
  joinPath (joinPath dataDir ['v', 'e', 'c', 't', 'o', 'r', 's', 't', 'o', 'r', 'e']) name

/-- Final verification of `delete_kb`: `root_deleted and vector_deleted`
recomputed from the filesystem. -/
def deleteFinish (root vec : List Char) (fs : FS) : Bool × FS :=
  ((!fs root) && (!fs vec), fs)

/-- Second half of the aggressive fallback: force-delete the vector
directory (chmod then rmtree), any exception yielding `False`. -/
def deleteForceVec (env : DelEnv) (iv : Bool) (root vec : List Char) (fs : FS) :
    Bool × FS :=
  if iv && fs vec then
    match env.chmodVec fs with
    | OpRes.exn f => (false, f)
    | OpRes.ok f =>
      match env.rmtreeVecForce f with
      | OpRes.exn f2 => (false, f2)
      | OpRes.ok f2 => deleteFinish root vec f2
  else deleteFinish root vec fs

/-- Aggressive fallback of `delete_kb` after the first attempt raised:
force-delete whichever of the two directories initially existed and still
exists, any exception yielding `False`. -/
def deleteForce (env : DelEnv) (ir iv : Bool) (root vec : List Char) (fs : FS) :
    Bool × FS :=
  if ir && fs root then
    match env.chmodRoot fs with
    | OpRes.exn f => (false, f)
    | OpRes.ok f =>
      match env.rmtreeRootForce f with
      | OpRes.exn f2 => (false, f2)
      | OpRes.ok f2 => deleteForceVec env iv root vec f2
  else deleteForceVec env iv root vec fs

/-- Model of `KnowledgeBaseService.delete_kb(name)`. -/
def delete_kb (env : DelEnv) (dataDir name : List Char) (fs : FS) : Bool × FS :=
  let root := kb_root dataDir name
  let vec := kb_vector_dir dataDir name
  let ir := fs root
  let iv := fs vec
  if !ir && !iv then (true, fs)
  else
    match (if ir then env.rmtreeRootTry fs else OpRes.ok fs) with
    | OpRes.exn f1 => deleteForce env ir iv root vec f1
    | OpRes.ok f1 =>
      match (if iv then env.rmtreeVecTry f1 else OpRes.ok f1) with
      | OpRes.exn f2 => deleteForce env ir iv root vec f2
      | OpRes.ok f2 => deleteFinish root vec f2

/-!
The Git clone retry loop of `KnowledgeBaseService.ingest_git_repo`
(`src/app/services/kb.py`, lines 444-510) and `_optimize_retry_strategy`
(lines 732-757).  The jitter `random.uniform(0.8, 1.2)` is a supplied
sequence `u` of rationals; `int()` of the (nonnegative) delay is its floor.
The per-attempt outcome of `Repo.clone_from` and the outcome of the final
`git` CLI fallback are supplied by the environment.
-/

/-- Python `int()` on a rational (truncation toward zero). -/
def pyInt (q : ℚ) : ℤ := if 0 ≤ q then ⌊q⌋ else ⌈q⌉

/-- Model of `KnowledgeBaseService._optimize_retry_strategy(attempt, _)` with jitter
value `u`: `int(min(60, 2 * 2**attempt) * u)`. -/
def _optimize_retry_strategy (attempt : Nat) (u : ℚ) : ℤ :=
  pyInt (min 60 (2 * 2 ^ attempt) * u)

inductive CloneOutcome where
  | success
  | gitCommandError
  | otherError

/-- Observable trace of the clone loop: number of library-level
`Repo.clone_from` calls, the `(attempt, seconds)` sleeps taken on
`GitCommandError` retries and on generic-exception retries, and whether the
whole operation succeeded. -/
structure CloneTrace where
  libCalls : Nat
  gitWaits : List (Nat × ℤ)
  otherWaits : List (Nat × ℤ)
  ok : Bool

def max_clone_retries : Nat := 3

def retry_delay : ℤ := 2

/-- The `for attempt in range(max_clone_retries)` loop of
`ingest_git_repo`, from attempt `a` with `r` iterations left: one
`Repo.clone_from` call per iteration; on `GitCommandError` at the last
attempt fall back to the `git` CLI, on a generic exception at the last
attempt raise; otherwise sleep (`_optimize_retry_strategy` resp.
`retry_delay * (attempt + 1)`) and retry. -/
def cloneLoopFrom (outcome : Nat → CloneOutcome) (u : Nat → ℚ) (cliOk : Bool) :
    Nat → Nat → CloneTrace
  | 0, _ => ⟨0, [], [], false⟩
  | r + 1, a =>
    match outcome a with
    | CloneOutcome.success => ⟨1, [], [], true⟩
    | CloneOutcome.gitCommandError =>
      if r = 0 then ⟨1, [], [], cliOk⟩
      else
        let t := cloneLoopFrom outcome u cliOk r (a + 1)
        ⟨t.libCalls + 1, (a, _optimize_retry_strategy a (u a)) :: t.gitWaits,
          t.otherWaits, t.ok⟩
    | CloneOutcome.otherError =>
      if r = 0 then ⟨1, [], [], false⟩
      else
        let t := cloneLoopFrom outcome u cliOk r (a + 1)
        ⟨t.libCalls + 1, t.gitWaits, (a, retry_delay * (a + 1)) :: t.otherWaits, t.ok⟩

/-- The whole clone stage: 3 attempts starting at attempt 0. -/
def ingestCloneTrace (outcome : Nat → CloneOutcome) (u : Nat → ℚ) (cliOk : Bool) :
    CloneTrace :=
  cloneLoopFrom outcome u cliOk max_clone_retries 0

/-!
Answer synthesis: `RagService.answer_question` (`src/app/services/rag.py`).
The retriever result and the LLM are external: the retrieved documents are
a supplied list and the generation service a supplied function.
-/

/-- A retrieved langchain document: `page_content` and the optional
`source` entry of its metadata (`metadata.get('source', '')`). -/
structure RDoc where
  page_content : List Char
  source : Option (List Char)

/-- Model of `d.metadata.get('source', '')`. -/
def metaSourceGet (d : RDoc) : List Char := d.source.getD []

/-- Model of the f-string rendering `[i+1] (source)` newline `page_content` for the
0-based index `i`. -/
def renderDoc (i : Nat) (d : RDoc) : List Char :=
  ['['] ++ (Nat.repr (i + 1)).toList ++ [']', ' ', '('] ++ metaSourceGet d ++
    [')', '\n'] ++ d.page_content

/-- Model of the blank-line join over the enumerated retrieved documents. -/
def buildContext (docs : List RDoc) : List Char :=
  List.intercalate ['\n', '\n'] (docs.enum.map (fun p => renderDoc p.1 p.2))

/-- Model of the sources list: source path and 300-character snippet per retrieved document. -/
def buildSources (docs : List RDoc) : List (List Char × List Char) :=
  docs.map (fun d => (metaSourceGet d, d.page_content.take 300))

/-- Model of `RagService.answer_question`, with the retrieval result `docs` and the
generation call `llm` supplied: returns `(answer, sources)`. -/
def answer_question (llm : List Char → List Char) (docs : List RDoc)
    (question : List Char) : List Char × List (List Char × List Char) :=
  (llm ("Context:".toList ++ ['\n'] ++ buildContext docs ++ ['\n', '\n'] ++
    "Question: ".toList ++ question), buildSources docs)

/-- The default document used to state positional lookups. -/
def defaultRDoc : RDoc := ⟨[], none⟩

/-- The context block as the spec words it: the i-th retrieved chunk
(1-based, retrieval order) rendered as `[i] (source_path)`, a newline and
the chunk text, the renderings joined with a blank line. -/
def specChunkRender (i : Nat) (src text : List Char) : List Char :=
  ['['] ++ (Nat.repr i).toList ++ [']'] ++ [' '] ++ ['('] ++ src ++ [')'] ++
    ['\n'] ++ text

/-- The whole context block per the spec's sentence. -/
def specContextBlock (docs : List RDoc) : List Char :=
  List.intercalate ['\n', '\n']
    ((List.range docs.length).map (fun j =>
      specChunkRender (j + 1) (metaSourceGet (docs.getD j defaultRDoc))
        (docs.getD j defaultRDoc).page_content))

/-!
`VectorStore.add_documents` (`src/app/services/vectorstore.py`, lines
125-164), modelled by its trace of external effects: opening/creating the
persisted Chroma collection, the embed-and-append `add_texts` call, and the
`persist()` flush.
-/

inductive VSEffect where
  | openCollection (name : List Char)
  | embedAndAdd (texts : List (List Char)) (metas : List (Option (List Char)))
  | persist

/-- Model of `VectorStore.add_documents(persist_dir, docs)`: empty input returns
before any external call; otherwise the collection is opened under the
derived name, the texts are embedded and appended, and the store is
flushed. -/
def add_documents (md5_8 : List Char → List Char) (persist_dir : List Char)
    (docs : List (List Char × Option (List Char))) : List VSEffect :=
  if docs.isEmpty then []
  else
    [VSEffect.openCollection (_get_safe_collection_name md5_8 persist_dir),
     VSEffect.embedAndAdd (docs.map Prod.fst) (docs.map Prod.snd),
     VSEffect.persist]

/-!
Credential embedding in `ingest_git_repo` (`src/app/services/kb.py`, lines
439-442):
`url = repo_url.replace("https://", f"https://{username}:{token}@")` when
`username and token and repo_url.startswith("https://") and "@" not in repo_url`.
-/

def httpsScheme : List Char := ['h', 't', 't', 'p', 's', ':', '/', '/']

/-- Python truthiness of an optional string (`None` and `""` are falsy). -/
def pyTruthy : Option (List Char) → Bool
  | none => false
  | some s => !s.isEmpty

/-- Python `str.replace("https://", new)`: replace every non-overlapping
occurrence, scanning left to right. -/
def replaceHttps (new : List Char) : List Char → List Char
  | 'h' :: 't' :: 't' :: 'p' :: 's' :: ':' :: '/' :: '/' :: rest =>
    new ++ replaceHttps new rest
  | c :: rest => c :: replaceHttps new rest
  | [] => []

/-- Model of the credential string `https://username:token@`. -/
def credUrl (username token : List Char) : List Char :=
  httpsScheme ++ username ++ [':'] ++ token ++ ['@']

/-- The clone URL actually used by `ingest_git_repo`. -/
def buildCloneUrl (username token : Option (List Char)) (repo_url : List Char) :
    List Char :=
  if pyTruthy username && pyTruthy token && httpsScheme.isPrefixOf repo_url
      && !(repo_url.contains '@') then
    replaceHttps (credUrl (username.getD []) (token.getD [])) repo_url
  else repo_url

/-!  Theorems.  First the supporting lemmas, then one theorem per claim. -/

theorem deleteFinish_fst_true (root vec : List Char) (fs : FS) :
    (deleteFinish root vec fs).1 = true →
    (deleteFinish root vec fs).2 root = false ∧
      (deleteFinish root vec fs).2 vec = false := by
  unfold deleteFinish
  simp

theorem deleteForceVec_fst_true (env : DelEnv) (iv : Bool) (root vec : List Char)
    (fs : FS) :
    (deleteForceVec env iv root vec fs).1 = true →
    (deleteForceVec env iv root vec fs).2 root = false ∧
      (deleteForceVec env iv root vec fs).2 vec = false := by
  unfold deleteForceVec
  split
  · split
    · simp
    · split
      · simp
      · apply deleteFinish_fst_true
  · apply deleteFinish_fst_true

theorem deleteForce_fst_true (env : DelEnv) (ir iv : Bool) (root vec : List Char)
    (fs : FS) :
    (deleteForce env ir iv root vec fs).1 = true →
    (deleteForce env ir iv root vec fs).2 root = false ∧
      (deleteForce env ir iv root vec fs).2 vec = false := by
  unfold deleteForce
  split
  · split
    · simp
    · split
      · simp
      · apply deleteForceVec_fst_true
  · apply deleteForceVec_fst_true

/-- Claim C3: whenever `delete_kb` returns `True`, both the knowledge
base's root directory and its vector directory are absent in the resulting
filesystem state; a half-deleted state is never reported as success. -/
theorem claim_C3 (env : DelEnv) (dataDir name : List Char) (fs : FS)
    (h : (delete_kb env dataDir name fs).1 = true) :
    (delete_kb env dataDir name fs).2 (kb_root dataDir name) = false ∧
      (delete_kb env dataDir name fs).2 (kb_vector_dir dataDir name) = false := by
  revert h
  unfold delete_kb
  dsimp only
  split
  · rename_i hcond
    intro _
    simp only [Bool.and_eq_true, Bool.not_eq_true'] at hcond
    exact hcond
  · split
    · apply deleteForce_fst_true
    · split
      · apply deleteForce_fst_true
      · apply deleteFinish_fst_true

/-- Witness for claim C3 at a concrete input: on an empty filesystem the
call returns `True`, and both directories are indeed absent afterwards. -/
theorem claim_C3_witness :
    (delete_kb ⟨OpRes.ok, OpRes.ok, OpRes.ok, OpRes.ok, OpRes.ok, OpRes.ok⟩
        ['d'] ['n'] (fun _ => false)).1 = true ∧
    (delete_kb ⟨OpRes.ok, OpRes.ok, OpRes.ok, OpRes.ok, OpRes.ok, OpRes.ok⟩
        ['d'] ['n'] (fun _ => false)).2 (kb_root ['d'] ['n']) = false ∧
    (delete_kb ⟨OpRes.ok, OpRes.ok, OpRes.ok, OpRes.ok, OpRes.ok, OpRes.ok⟩
        ['d'] ['n'] (fun _ => false)).2 (kb_vector_dir ['d'] ['n']) = false := by
  refine ⟨rfl, ?_⟩
  exact claim_C3 ⟨OpRes.ok, OpRes.ok, OpRes.ok, OpRes.ok, OpRes.ok, OpRes.ok⟩
    ['d'] ['n'] (fun _ => false) rfl

/-- Claim C5: when neither the knowledge base's root directory nor its
vector directory exists, `delete_kb` returns `True` and performs no
filesystem modification at all. -/
theorem claim_C5 (env : DelEnv) (dataDir name : List Char) (fs : FS)
    (hroot : fs (kb_root dataDir name) = false)
    (hvec : fs (kb_vector_dir dataDir name) = false) :
    delete_kb env dataDir name fs = (true, fs) := by
  unfold delete_kb
  simp [hroot, hvec]

/-- Witness for claim C5 at a concrete input. -/
theorem claim_C5_witness :
    delete_kb ⟨OpRes.ok, OpRes.ok, OpRes.ok, OpRes.ok, OpRes.ok, OpRes.ok⟩
        ['d'] ['n'] (fun _ => false) = (true, fun _ => false) :=
  claim_C5 ⟨OpRes.ok, OpRes.ok, OpRes.ok, OpRes.ok, OpRes.ok, OpRes.ok⟩
    ['d'] ['n'] (fun _ => false) rfl rfl

/-- Claim C8: `add_documents` on an empty chunk list is a no-op — it opens
no collection, makes no embedding call and performs no persistence write. -/
theorem claim_C8 (md5_8 : List Char → List Char) (persist_dir : List Char) :
    add_documents md5_8 persist_dir [] = [] := rfl

theorem dropWhile_head_not (p : Char → Bool) :
    ∀ l : List Char, ∀ c ∈ (l.dropWhile p).head?, p c = false := by
  intro l
  induction l with
  | nil => intro c hc; simp at hc
  | cons a rest ih =>
    intro c hc
    rw [List.dropWhile_cons] at hc
    by_cases hp : p a
    · rw [if_pos hp] at hc
      exact ih c hc
    · rw [if_neg hp] at hc
      simp only [List.head?_cons, Option.mem_def, Option.some.injEq] at hc
      subst hc
      simpa using hp

theorem dropWhile_getLast_eq (p : Char → Bool) :
    ∀ l : List Char, l.dropWhile p ≠ [] →
      (l.dropWhile p).getLast? = l.getLast? := by
  intro l
  induction l with
  | nil => intro h; simp at h
  | cons a rest ih =>
    intro h
    rw [List.dropWhile_cons] at h ⊢
    by_cases hp : p a
    · rw [if_pos hp] at h ⊢
      rw [ih h]
      cases rest with
      | nil => simp at h
      | cons b t => rw [List.getLast?_cons_cons]
    · rw [if_neg hp]

theorem mem_of_mem_dropWhile (p : Char → Bool) :
    ∀ (l : List Char) (c : Char), c ∈ l.dropWhile p → c ∈ l := by
  intro l
  induction l with
  | nil => intro c hc; simpa using hc
  | cons a rest ih =>
    intro c hc
    rw [List.dropWhile_cons] at hc
    by_cases hp : p a
    · rw [if_pos hp] at hc
      exact List.mem_cons_of_mem a (ih c hc)
    · rwa [if_neg hp] at hc

theorem dropWhile_eq_self_of_head (p : Char → Bool) (l : List Char)
    (h : ∀ c ∈ l.head?, p c = false) : l.dropWhile p = l := by
  cases l with
  | nil => rfl
  | cons a rest =>
    rw [List.dropWhile_cons, if_neg]
    have := h a rfl
    simp [this]

theorem dropWhile_length_le (p : Char → Bool) :
    ∀ l : List Char, (l.dropWhile p).length ≤ l.length := by
  intro l
  induction l with
  | nil => simp
  | cons a rest ih =>
    rw [List.dropWhile_cons]
    by_cases hp : p a
    · rw [if_pos hp]
      simp only [List.length_cons]
      omega
    · rw [if_neg hp]

theorem mem_of_mem_getLast?' (l : List Char) (c : Char) (h : c ∈ l.getLast?) :
    c ∈ l := by
  rw [← List.head?_reverse] at h
  have := List.mem_of_mem_head? h
  rwa [List.mem_reverse] at this

theorem trimWhile_head (p : Char → Bool) (l : List Char) :
    ∀ c ∈ (trimWhile p l).head?, p c = false := by
  intro c hc
  unfold trimWhile at hc
  rw [List.head?_reverse] at hc
  by_cases hm : (l.dropWhile p).reverse.dropWhile p = []
  · rw [hm] at hc; simp at hc
  · rw [dropWhile_getLast_eq p _ hm, List.getLast?_reverse] at hc
    exact dropWhile_head_not p l c hc

theorem trimWhile_getLast (p : Char → Bool) (l : List Char) :
    ∀ c ∈ (trimWhile p l).getLast?, p c = false := by
  intro c hc
  unfold trimWhile at hc
  rw [List.getLast?_reverse] at hc
  exact dropWhile_head_not p _ c hc

theorem trimWhile_mem (p : Char → Bool) (l : List Char) :
    ∀ c ∈ trimWhile p l, c ∈ l := by
  intro c hc
  unfold trimWhile at hc
  rw [List.mem_reverse] at hc
  have h1 := mem_of_mem_dropWhile p _ c hc
  rw [List.mem_reverse] at h1
  exact mem_of_mem_dropWhile p _ c h1

theorem trimWhile_eq_self (p : Char → Bool) (l : List Char)
    (h1 : ∀ c ∈ l.head?, p c = false) (h2 : ∀ c ∈ l.getLast?, p c = false) :
    trimWhile p l = l := by
  unfold trimWhile
  rw [dropWhile_eq_self_of_head p l h1]
  rw [dropWhile_eq_self_of_head p l.reverse (by rw [List.head?_reverse]; exact h2)]
  exact List.reverse_reverse l

theorem trimWhile_length_le (p : Char → Bool) (l : List Char) :
    (trimWhile p l).length ≤ l.length := by
  unfold trimWhile
  simp only [List.length_reverse]
  refine le_trans (dropWhile_length_le p _) ?_
  simp only [List.length_reverse]
  exact dropWhile_length_le p l

theorem sumLens_nil : sumLens [] = 0 := rfl

theorem sumLens_cons (d : List Char) (l : List (List Char)) :
    sumLens (d :: l) = d.length + sumLens l := by
  simp [sumLens]

theorem sumLens_append (a b : List (List Char)) :
    sumLens (a ++ b) = sumLens a + sumLens b := by
  simp [sumLens]

theorem sumLens_eq_length_flatten (l : List (List Char)) :
    sumLens l = l.flatten.length := by
  simp [sumLens, List.length_flatten]

theorem sumLens_pos_of_ne_nil (l : List (List Char)) (hl : l ≠ [])
    (hne : ∀ x ∈ l, x ≠ []) : 0 < sumLens l := by
  cases l with
  | nil => simp at hl
  | cons x t =>
    rw [sumLens_cons]
    have : x ≠ [] := hne x (by simp)
    have : 0 < x.length := List.length_pos.mpr this
    omega

theorem popLoop_suffix (dlen cs ov : Nat) :
    ∀ cur : List (List Char), popLoop dlen cs ov cur <:+ cur := by
  intro cur
  induction cur with
  | nil => simp [popLoop]
  | cons c rest ih =>
    rw [popLoop]
    split
    · exact ih.trans (List.suffix_cons c rest)
    · exact List.suffix_refl _

theorem popLoop_post (dlen cs ov : Nat) :
    ∀ cur : List (List Char), popLoop dlen cs ov cur = [] ∨
      ¬(sumLens (popLoop dlen cs ov cur) > ov ∨
        (sumLens (popLoop dlen cs ov cur) + dlen > cs ∧
          sumLens (popLoop dlen cs ov cur) > 0)) := by
  intro cur
  induction cur with
  | nil => left; rfl
  | cons c rest ih =>
    rw [popLoop]
    split
    · exact ih
    · right; assumption

theorem pyStrip_eq_self (l : List Char) (h : ∀ c ∈ l, pyIsSpace c = false) :
    pyStrip l = l := by
  unfold pyStrip
  apply trimWhile_eq_self
  · intro c hc
    exact h c (List.mem_of_mem_head? hc)
  · intro c hc
    exact h c (mem_of_mem_getLast?' l c hc)

theorem pyStrip_length_le (l : List Char) : (pyStrip l).length ≤ l.length :=
  trimWhile_length_le pyIsSpace l

theorem mem_joinDocs_toList (cur : List (List Char)) (out : List Char)
    (h : out ∈ (joinDocs cur).toList) : out = pyStrip cur.flatten := by
  unfold joinDocs at h
  dsimp only at h
  by_cases he : (pyStrip cur.flatten).isEmpty
  · rw [if_pos he] at h
    simp at h
  · rw [if_neg he] at h
    simpa using h

theorem joinDocs_of_clean (cur : List (List Char)) (hcur : cur ≠ [])
    (hne : ∀ x ∈ cur, x ≠ []) (hws : ∀ x ∈ cur, ∀ c ∈ x, pyIsSpace c = false) :
    joinDocs cur = some cur.flatten := by
  have hstrip : pyStrip cur.flatten = cur.flatten := by
    apply pyStrip_eq_self
    intro c hc
    obtain ⟨x, hx, hcx⟩ := List.mem_flatten.mp hc
    exact hws x hx c hcx
  have hflne : cur.flatten ≠ [] := by
    intro hcon
    have := sumLens_pos_of_ne_nil cur hcur hne
    rw [sumLens_eq_length_flatten, hcon] at this
    simp at this
  unfold joinDocs
  dsimp only
  rw [hstrip, if_neg (by simpa using hflne)]

theorem mergeLoop_bound (cs ov : Nat) :
    ∀ (splits cur : List (List Char)),
      (∀ x ∈ cur, x ≠ []) → sumLens cur ≤ cs →
      (∀ d ∈ splits, d ≠ [] ∧ d.length < cs) →
      ∀ out ∈ mergeLoop cs ov cur splits, out.length ≤ cs := by
  intro splits
  induction splits with
  | nil =>
    intro cur hne hsum hd out hout
    rw [mergeLoop] at hout
    rw [mem_joinDocs_toList cur out hout]
    calc (pyStrip cur.flatten).length ≤ cur.flatten.length := pyStrip_length_le _
    _ = sumLens cur := (sumLens_eq_length_flatten cur).symm
    _ ≤ cs := hsum
  | cons d ds ih =>
    intro cur hne hsum hd out hout
    have hdd := hd d (by simp)
    rw [mergeLoop] at hout
    by_cases hflush : sumLens cur + d.length > cs
    · rw [if_pos hflush] at hout
      by_cases hemp : cur.isEmpty
      · exfalso
        have : cur = [] := by simpa using hemp
        subst this
        rw [sumLens_nil] at hflush
        omega
      · rw [if_neg hemp] at hout
        rcases List.mem_append.mp hout with h | h
        · rw [mem_joinDocs_toList cur out h]
          calc (pyStrip cur.flatten).length ≤ cur.flatten.length :=
            pyStrip_length_le _
          _ = sumLens cur := (sumLens_eq_length_flatten cur).symm
          _ ≤ cs := hsum
        · set P := popLoop d.length cs ov cur with hP
          have hPmem : ∀ x ∈ P, x ∈ cur :=
            fun x hx => (popLoop_suffix d.length cs ov cur).sublist.mem hx
          apply ih (P ++ [d]) _ _ (fun x hx => hd x (by simp [hx])) out h
          · intro x hx
            rcases List.mem_append.mp hx with hx | hx
            · exact hne x (hPmem x hx)
            · simp at hx
              subst hx
              exact hdd.1
          · rw [sumLens_append]
            rcases popLoop_post d.length cs ov cur with hnil | hpost
            · rw [← hP] at hnil
              rw [hnil, sumLens_nil]
              have hdl := hdd.2
              simp only [sumLens_cons, sumLens_nil]
              omega
            · rw [← hP] at hpost
              push_neg at hpost
              by_cases hPnil : P = []
              · rw [hPnil, sumLens_nil]
                simp [sumLens_cons, sumLens_nil]
                omega
              · have hppos : 0 < sumLens P :=
                  sumLens_pos_of_ne_nil P hPnil (fun x hx => hne x (hPmem x hx))
                have hle : sumLens P + d.length ≤ cs := by
                  by_contra hcon
                  push_neg at hcon
                  exact absurd hppos (by simpa using hpost.2 hcon)
                simp only [sumLens_cons, sumLens_nil]
                omega
    · rw [if_neg hflush] at hout
      apply ih (cur ++ [d]) _ _ (fun x hx => hd x (by simp [hx])) out hout
      · intro x hx
        rcases List.mem_append.mp hx with hx | hx
        · exact hne x hx
        · simp at hx
          subst hx
          exact hdd.1
      · rw [sumLens_append]
        simp only [sumLens_cons, sumLens_nil]
        omega

theorem mergeLoop_noflush (cs ov : Nat) :
    ∀ (splits cur : List (List Char)), sumLens cur + sumLens splits ≤ cs →
      mergeLoop cs ov cur splits = (joinDocs (cur ++ splits)).toList := by
  intro splits
  induction splits with
  | nil =>
    intro cur h
    rw [mergeLoop]
    simp
  | cons d ds ih =>
    intro cur h
    rw [sumLens_cons] at h
    rw [mergeLoop]
    rw [if_neg (by omega)]
    rw [ih (cur ++ [d]) (by rw [sumLens_append]; simp only [sumLens_cons, sumLens_nil]; omega)]
    rw [List.append_assoc]
    rfl

theorem intercalate_cons_ne (sep x : List Char) (ys : List (List Char))
    (h : ys ≠ []) :
    List.intercalate sep (x :: ys) = x ++ sep ++ List.intercalate sep ys := by
  cases ys with
  | nil => simp at h
  | cons y t =>
    simp [List.intercalate, List.append_assoc]

theorem splitParts_ne_nil (sep : List Char) (hse : sep ≠ []) (text : List Char) :
    splitParts sep hse text ≠ [] := by
  rw [splitParts]
  split <;> simp

theorem splitParts_intercalate (sep : List Char) (hse : sep ≠ []) :
    ∀ text : List Char, List.intercalate sep (splitParts sep hse text) = text := by
  have main : ∀ (n : Nat) (text : List Char), text.length ≤ n →
      List.intercalate sep (splitParts sep hse text) = text := by
    intro n
    induction n with
    | zero =>
      intro text htext
      have : text = [] := List.length_eq_zero.mp (Nat.le_zero.mp htext)
      subst this
      rw [splitParts]
      split
      · simp [List.intercalate]
      · rename_i pq hpq
        exact absurd hpq (by simp [findSplit])
    | succ n ih =>
      intro text htext
      rw [splitParts]
      split
      · simp [List.intercalate]
      · rename_i pq hpq
        have hdec := findSplit_eq_append sep text pq hpq
        have hlt := findSplit_post_lt sep hse text pq hpq
        rw [intercalate_cons_ne sep pq.1 _ (splitParts_ne_nil sep hse pq.2)]
        rw [ih pq.2 (by omega)]
        exact hdec.symm
  intro text
  exact main text.length text le_rfl

theorem flatten_filter_nonempty (l : List (List Char)) :
    (l.filter (fun s => !s.isEmpty)).flatten = l.flatten := by
  induction l with
  | nil => rfl
  | cons x t ih =>
    rw [List.filter_cons]
    by_cases hx : x.isEmpty
    · have hx' : x = [] := by simpa using hx
      subst hx'
      simpa using ih
    · simp only [hx, Bool.not_false, if_true]
      simp [ih]

theorem mapSep_flatten (sep : List Char) :
    ∀ (ps : List (List Char)) (p : List Char),
      (p :: ps.map (fun q => sep ++ q)).flatten = List.intercalate sep (p :: ps) := by
  intro ps
  induction ps with
  | nil => intro p; simp [List.intercalate]
  | cons y t ih =>
    intro p
    rw [intercalate_cons_ne sep p (y :: t) (by simp)]
    have hy := ih y
    simp only [List.map_cons, List.flatten_cons] at hy ⊢
    rw [List.append_assoc sep y, hy]
    simp [List.append_assoc]

theorem keepSepSplits_flatten (sep : List Char) (hse : sep ≠ []) (text : List Char) :
    (keepSepSplits sep hse text).flatten = text := by
  unfold keepSepSplits
  rw [flatten_filter_nonempty]
  cases hsp : splitParts sep hse text with
  | nil => exact absurd hsp (splitParts_ne_nil sep hse text)
  | cons p ps =>
    rw [mapSep_flatten sep ps p, ← hsp]
    exact splitParts_intercalate sep hse text

theorem keepSepSplits_ne_nil_mem (sep : List Char) (hse : sep ≠ [])
    (text : List Char) : ∀ s ∈ keepSepSplits sep hse text, s ≠ [] := by
  intro s hs
  unfold keepSepSplits at hs
  have := List.of_mem_filter hs
  simpa using this

theorem mem_flatten_of_mem_mem {s : List Char} {splits : List (List Char)}
    (hs : s ∈ splits) {c : Char} (hc : c ∈ s) : c ∈ splits.flatten :=
  List.mem_flatten.mpr ⟨s, hs, hc⟩

theorem flatten_map_singleton (l : List Char) :
    (l.map (fun c => [c])).flatten = l := by
  induction l with
  | nil => rfl
  | cons a t ih => simp [ih]

theorem chooseGo_some_of_mem (text : List Char) :
    ∀ seps : List (List Char), [] ∈ seps → (chooseGo text seps).isSome = true := by
  intro seps
  induction seps with
  | nil => intro h; simp at h
  | cons s rest ih =>
    intro h
    rw [chooseGo]
    by_cases hs : s = []
    · rw [if_pos hs]; rfl
    · rw [if_neg hs]
      by_cases ho : occursIn s text
      · rw [if_pos ho]; rfl
      · rw [if_neg ho]
        apply ih
        rcases List.mem_cons.mp h with h' | h'
        · exact absurd h'.symm hs
        · exact h'

theorem chooseGo_cases (text : List Char) :
    ∀ (seps : List (List Char)) (p : List Char × List (List Char)),
      chooseGo text seps = some p →
      (p.1 = [] ∧ p.2 = []) ∨
      (p.1 ≠ [] ∧ occursIn p.1 text = true ∧ p.2.length < seps.length ∧
        ([] ∈ seps → [] ∈ p.2)) := by
  intro seps
  induction seps with
  | nil => intro p h; simp [chooseGo] at h
  | cons s rest ih =>
    intro p h
    rw [chooseGo] at h
    by_cases hs : s = []
    · rw [if_pos hs] at h
      injection h with h2
      subst h2
      left
      exact ⟨rfl, rfl⟩
    · rw [if_neg hs] at h
      by_cases ho : occursIn s text
      · rw [if_pos ho] at h
        injection h with h2
        subst h2
        right
        refine ⟨hs, ho, by simp, ?_⟩
        intro hmem
        rcases List.mem_cons.mp hmem with h' | h'
        · exact absurd h'.symm hs
        · exact h'
      · rw [if_neg ho] at h
        rcases ih p h with hl | hr
        · left; exact hl
        · right
          refine ⟨hr.1, hr.2.1, ?_, ?_⟩
          · have := hr.2.2.1
            simp only [List.length_cons]
            omega
          · intro hmem
            apply hr.2.2.2
            rcases List.mem_cons.mp hmem with h' | h'
            · exact absurd h'.symm hs
            · exact h'

theorem chooseSep_cases (seps : List (List Char)) (text : List Char)
    (hmem : [] ∈ seps) :
    ((chooseSep seps text).1 = [] ∧ (chooseSep seps text).2 = []) ∨
    ((chooseSep seps text).1 ≠ [] ∧
      occursIn (chooseSep seps text).1 text = true ∧
      (chooseSep seps text).2.length < seps.length ∧
      [] ∈ (chooseSep seps text).2) := by
  have hsome := chooseGo_some_of_mem text seps hmem
  unfold chooseSep
  cases hg : chooseGo text seps with
  | none => rw [hg] at hsome; simp at hsome
  | some p =>
    simp only [Option.getD_some]
    rcases chooseGo_cases text seps p hg with hl | hr
    · left; exact hl
    · right
      exact ⟨hr.1, hr.2.1, hr.2.2.1, hr.2.2.2 hmem⟩

theorem processLoop_allGood (cs ov : Nat) (f : List Char → List (List Char)) :
    ∀ (splits goods : List (List Char)), (∀ s ∈ splits, s.length < cs) →
      processLoop cs ov f goods splits =
        if (goods ++ splits).isEmpty then []
        else mergeSplits cs ov (goods ++ splits) := by
  intro splits
  induction splits with
  | nil =>
    intro goods h
    rw [processLoop]
    simp
  | cons s rest ih =>
    intro goods h
    rw [processLoop]
    rw [if_pos (h s (by simp))]
    rw [ih (goods ++ [s]) (fun x hx => h x (by simp [hx]))]
    rw [List.append_assoc]
    rfl

theorem processLoop_bound (cs ov : Nat) (f : List Char → List (List Char)) :
    ∀ (splits goods : List (List Char)),
      (∀ g ∈ goods, g ≠ [] ∧ g.length < cs) →
      (∀ s ∈ splits, s ≠ []) →
      (∀ s ∈ splits, ¬ s.length < cs → ∀ c ∈ f s, c.length ≤ cs) →
      ∀ out ∈ processLoop cs ov f goods splits, out.length ≤ cs := by
  intro splits
  induction splits with
  | nil =>
    intro goods hg hs hf out hout
    rw [processLoop] at hout
    by_cases hemp : goods.isEmpty
    · rw [if_pos hemp] at hout
      simp at hout
    · rw [if_neg hemp] at hout
      unfold mergeSplits at hout
      exact mergeLoop_bound cs ov goods [] (by simp)
        (by rw [sumLens_nil]; exact Nat.zero_le cs) hg out hout
  | cons d rest ih =>
    intro goods hg hs hf out hout
    rw [processLoop] at hout
    have hgood' : ∀ g ∈ goods ++ [d], d.length < cs → g ≠ [] ∧ g.length < cs := by
      intro g hgm hdl
      rcases List.mem_append.mp hgm with h | h
      · exact hg g h
      · have hgd : g = d := by simpa using h
        rw [hgd]
        exact ⟨hs d (by simp), hdl⟩
    by_cases hsl : d.length < cs
    · rw [if_pos hsl] at hout
      exact ih (goods ++ [d]) (fun g hgm => hgood' g hgm hsl)
        (fun x hx => hs x (by simp [hx]))
        (fun x hx => hf x (by simp [hx])) out hout
    · rw [if_neg hsl] at hout
      rcases List.mem_append.mp hout with h | h
      · rcases List.mem_append.mp h with h1 | h1
        · by_cases hemp : goods.isEmpty
          · rw [if_pos hemp] at h1
            simp at h1
          · rw [if_neg hemp] at h1
            unfold mergeSplits at h1
            exact mergeLoop_bound cs ov goods [] (by simp)
              (by rw [sumLens_nil]; exact Nat.zero_le cs) hg out h1
        · exact hf d (by simp) hsl out h1
      · exact ih [] (by simp) (fun x hx => hs x (by simp [hx]))
          (fun x hx => hf x (by simp [hx])) out h

theorem splitTextRec_eq (cs ov : Nat) (seps : List (List Char)) (text : List Char) :
    splitTextRec cs ov seps text =
      processLoop cs ov
        (if _h : (chooseSep seps text).2 = [] then fun b => [b]
         else fun b => splitTextRec cs ov (chooseSep seps text).2 b)
        []
        (if hse : (chooseSep seps text).1 = [] then text.map (fun c => [c])
         else keepSepSplits (chooseSep seps text).1 hse text) := by
  rw [splitTextRec]

theorem splitTextRec_bound (cs ov : Nat) (hcs : 1 < cs) :
    ∀ (n : Nat) (seps : List (List Char)), seps.length ≤ n → [] ∈ seps →
      ∀ (text out : List Char), out ∈ splitTextRec cs ov seps text →
        out.length ≤ cs := by
  intro n
  induction n with
  | zero =>
    intro seps hlen hmem
    have : seps = [] := List.length_eq_zero.mp (Nat.le_zero.mp hlen)
    subst this
    simp at hmem
  | succ n ih =>
    intro seps hlen hmem text out hout
    rw [splitTextRec_eq] at hout
    rcases chooseSep_cases seps text hmem with ⟨h1, h2⟩ | ⟨h1, _, hlt, hmem2⟩
    · rw [dif_pos h1, dif_pos h2] at hout
      apply processLoop_bound cs ov _ _ [] (by simp) _ _ out hout
      · intro s hsm
        rw [List.mem_map] at hsm
        obtain ⟨c, _, hc⟩ := hsm
        rw [← hc]
        simp
      · intro s hsm hbad
        exfalso
        apply hbad
        rw [List.mem_map] at hsm
        obtain ⟨c, _, hc⟩ := hsm
        rw [← hc]
        simp only [List.length_singleton]
        omega
    · have h2ne : (chooseSep seps text).2 ≠ [] := by
        intro hcon
        rw [hcon] at hmem2
        simp at hmem2
      rw [dif_neg h1, dif_neg h2ne] at hout
      apply processLoop_bound cs ov _ _ [] (by simp)
        (keepSepSplits_ne_nil_mem _ h1 text) _ out hout
      intro s _ _ c hcm
      exact ih (chooseSep seps text).2 (by omega) hmem2 s c hcm

theorem joinDocs_toList (l : List (List Char)) :
    (joinDocs l).toList =
      if (pyStrip l.flatten).isEmpty then [] else [pyStrip l.flatten] := by
  unfold joinDocs
  dsimp only
  split <;> simp

theorem single_heavy_split (cs : Nat) (splits : List (List Char))
    (text : List Char) (hfl : splits.flatten = text)
    (hne : ∀ x ∈ splits, x ≠ []) (htext : text.length ≤ cs)
    (s : List Char) (hs : s ∈ splits) (hbig : cs ≤ s.length) :
    splits = [s] ∧ s = text := by
  obtain ⟨l1, l2, hdec⟩ := List.append_of_mem hs
  subst hdec
  have hlen : l1.flatten.length + s.length + l2.flatten.length = text.length := by
    rw [← hfl]
    simp
    omega
  have h1 : l1.flatten.length = 0 ∧ l2.flatten.length = 0 := by omega
  have hl1 : l1 = [] := by
    cases hcase : l1 with
    | nil => rfl
    | cons x t =>
      exfalso
      have hx : x ≠ [] := hne x (by simp [hcase])
      have hxpos : 0 < x.length := List.length_pos.mpr hx
      have h0 := h1.1
      rw [hcase] at h0
      simp only [List.flatten_cons, List.length_append] at h0
      omega
  have hl2 : l2 = [] := by
    cases hcase : l2 with
    | nil => rfl
    | cons x t =>
      exfalso
      have hx : x ≠ [] := hne x (by simp [hcase])
      have hxpos : 0 < x.length := List.length_pos.mpr hx
      have h0 := h1.2
      rw [hcase] at h0
      simp only [List.flatten_cons, List.length_append] at h0
      omega
  subst hl1
  subst hl2
  constructor
  · rfl
  · simpa using hfl

theorem splitTextRec_small (cs ov : Nat) (hcs : 1 < cs) :
    ∀ (n : Nat) (seps : List (List Char)), seps.length ≤ n → [] ∈ seps →
      ∀ text : List Char, text.length ≤ cs →
        splitTextRec cs ov seps text =
          if (pyStrip text).isEmpty then [] else [pyStrip text] := by
  intro n
  induction n with
  | zero =>
    intro seps hlen hmem
    have : seps = [] := List.length_eq_zero.mp (Nat.le_zero.mp hlen)
    subst this
    simp at hmem
  | succ n ih =>
    intro seps hlen hmem text htext
    rw [splitTextRec_eq]
    rcases chooseSep_cases seps text hmem with ⟨h1, h2⟩ | ⟨h1, _, hlt, hmem2⟩
    · rw [dif_pos h1, dif_pos h2]
      rw [processLoop_allGood cs ov _ _ []
        (by
          intro s hsm
          rw [List.mem_map] at hsm
          obtain ⟨c, _, hc⟩ := hsm
          rw [← hc]
          simpa using hcs)]
      rw [List.nil_append]
      by_cases hemp : (text.map (fun c => [c])).isEmpty
      · rw [if_pos hemp]
        have htn : text = [] := by
          cases text with
          | nil => rfl
          | cons a t => simp at hemp
        subst htn
        simp [pyStrip, trimWhile]
      · rw [if_neg hemp]
        unfold mergeSplits
        rw [mergeLoop_noflush cs ov _ []
          (by
            rw [sumLens_nil, sumLens_eq_length_flatten, flatten_map_singleton]
            omega)]
        rw [List.nil_append, joinDocs_toList, flatten_map_singleton]
    · have h2ne : (chooseSep seps text).2 ≠ [] := by
        intro hcon
        rw [hcon] at hmem2
        simp at hmem2
      rw [dif_neg h1, dif_neg h2ne]
      set sp := keepSepSplits (chooseSep seps text).1 h1 text with hsp
      have hfl : sp.flatten = text := keepSepSplits_flatten _ h1 text
      have hnem : ∀ x ∈ sp, x ≠ [] := keepSepSplits_ne_nil_mem _ h1 text
      by_cases hgood : ∀ s ∈ sp, s.length < cs
      · rw [processLoop_allGood cs ov _ _ [] hgood, List.nil_append]
        by_cases hemp : sp.isEmpty
        · rw [if_pos hemp]
          have hsn : sp = [] := by simpa using hemp
          have htn : text = [] := by rw [← hfl, hsn]; rfl
          subst htn
          simp [pyStrip, trimWhile]
        · rw [if_neg hemp]
          unfold mergeSplits
          rw [mergeLoop_noflush cs ov _ []
            (by rw [sumLens_nil, sumLens_eq_length_flatten, hfl]; omega)]
          rw [List.nil_append, joinDocs_toList, hfl]
      · push_neg at hgood
        obtain ⟨s, hsm, hsbig⟩ := hgood
        obtain ⟨hsp1, hst⟩ := single_heavy_split cs sp text hfl hnem htext s hsm hsbig
        rw [hsp1, hst]
        rw [processLoop]
        rw [if_neg (by rw [← hst]; omega)]
        rw [processLoop]
        simp only [List.isEmpty_nil, if_true]
        rw [ih (chooseSep seps text).2 (by omega) hmem2 text htext]
        simp

/-- Claim C9: every chunk produced by `chunk_texts` has length at most 1200
characters — the final empty separator makes the target a hard bound. -/
theorem claim_C9 (text out : List Char) (hout : out ∈ chunk_texts text) :
    out.length ≤ 1200 :=
  splitTextRec_bound 1200 150 (by omega) chunkSeparators.length chunkSeparators
    le_rfl (by simp [chunkSeparators]) text out hout

theorem forall₂_append' {r : List Char → List Char → Prop} :
    ∀ {a a' b b' : List (List Char)}, List.Forall₂ r a a' →
      List.Forall₂ r b b' → List.Forall₂ r (a ++ b) (a' ++ b') := by
  intro a a' b b' h1 h2
  induction h1 with
  | nil => simpa using h2
  | cons hr _ ih => exact List.Forall₂.cons hr ih

theorem head?_append_congr (a b a' b' : List (List Char))
    (hlen : a.length = a'.length) (ha : a.head? = a'.head?)
    (hb : b.head? = b'.head?) : (a ++ b).head? = (a' ++ b').head? := by
  cases a with
  | nil =>
    cases a' with
    | nil => simpa using hb
    | cons y u => simp at hlen
  | cons x t =>
    cases a' with
    | nil => simp at hlen
    | cons y u => simpa using ha

theorem mergeLoop_reconstruct (cs ov : Nat) :
    ∀ (splits kept fresh : List (List Char)),
      (∀ x ∈ kept, x ≠ [] ∧ ∀ c ∈ x, pyIsSpace c = false) →
      (∀ x ∈ fresh, x ≠ [] ∧ ∀ c ∈ x, pyIsSpace c = false) →
      (∀ d ∈ splits, d ≠ [] ∧ d.length < cs ∧ ∀ c ∈ d, pyIsSpace c = false) →
      ∃ trims : List (List Char),
        List.Forall₂ (fun t c => t <:+ c) trims
          (mergeLoop cs ov (kept ++ fresh) splits) ∧
        (kept = [] →
          trims.head? = (mergeLoop cs ov (kept ++ fresh) splits).head?) ∧
        trims.flatten = fresh.flatten ++ splits.flatten := by
  intro splits
  induction splits with
  | nil =>
    intro kept fresh hk hf _
    rw [mergeLoop]
    by_cases hcur : kept ++ fresh = []
    · rw [hcur]
      have hfn : fresh = [] := (List.append_eq_nil.mp hcur).2
      refine ⟨[], ?_, fun _ => rfl, ?_⟩
      · show List.Forall₂ _ [] (joinDocs []).toList
        simp [joinDocs, pyStrip, trimWhile]
      · rw [hfn]
        rfl
    · have hjd : joinDocs (kept ++ fresh) = some (kept ++ fresh).flatten := by
        apply joinDocs_of_clean _ hcur
        · intro x hx
          rcases List.mem_append.mp hx with h | h
          · exact (hk x h).1
          · exact (hf x h).1
        · intro x hx
          rcases List.mem_append.mp hx with h | h
          · exact (hk x h).2
          · exact (hf x h).2
      rw [hjd]
      simp only [Option.toList_some]
      refine ⟨[fresh.flatten], ?_, ?_, ?_⟩
      · refine List.Forall₂.cons ?_ List.Forall₂.nil
        rw [List.flatten_append]
        exact List.suffix_append _ _
      · intro hkn
        subst hkn
        simp
      · simp
  | cons d ds ih =>
    intro kept fresh hk hf hs
    have hd := hs d (by simp)
    rw [mergeLoop]
    by_cases hflush : sumLens (kept ++ fresh) + d.length > cs
    · rw [if_pos hflush]
      by_cases hemp : (kept ++ fresh).isEmpty
      · exfalso
        have hcn : kept ++ fresh = [] := by simpa using hemp
        rw [hcn, sumLens_nil] at hflush
        have := hd.2.1
        omega
      · rw [if_neg hemp]
        have hcur : kept ++ fresh ≠ [] := by simpa using hemp
        have hjd : joinDocs (kept ++ fresh) = some (kept ++ fresh).flatten := by
          apply joinDocs_of_clean _ hcur
          · intro x hx
            rcases List.mem_append.mp hx with h | h
            · exact (hk x h).1
            · exact (hf x h).1
          · intro x hx
            rcases List.mem_append.mp hx with h | h
            · exact (hk x h).2
            · exact (hf x h).2
        rw [hjd]
        simp only [Option.toList_some, List.singleton_append]
        set P := popLoop d.length cs ov (kept ++ fresh) with hP
        have hPmem : ∀ x ∈ P, x ∈ kept ++ fresh := fun x hx =>
          (popLoop_suffix d.length cs ov (kept ++ fresh)).sublist.mem hx
        obtain ⟨trims', h1, _, h3⟩ := ih P [d]
          (by
            intro x hx
            rcases List.mem_append.mp (hPmem x hx) with h | h
            · exact hk x h
            · exact hf x h)
          (by
            intro x hx
            simp at hx
            subst hx
            exact ⟨hd.1, hd.2.2⟩)
          (fun x hx => hs x (List.mem_cons_of_mem d hx))
        refine ⟨fresh.flatten :: trims', ?_, ?_, ?_⟩
        · refine List.Forall₂.cons ?_ h1
          rw [List.flatten_append]
          exact List.suffix_append _ _
        · intro hkn
          subst hkn
          simp
        · simp only [List.flatten_cons]
          rw [h3]
          simp
    · rw [if_neg hflush]
      obtain ⟨trims, h1, h2, h3⟩ := ih kept (fresh ++ [d]) hk
        (by
          intro x hx
          rcases List.mem_append.mp hx with h | h
          · exact hf x h
          · simp at h
            subst h
            exact ⟨hd.1, hd.2.2⟩)
        (fun x hx => hs x (List.mem_cons_of_mem d hx))
      rw [List.append_assoc]
      refine ⟨trims, h1, h2, ?_⟩
      rw [h3]
      simp

theorem processLoop_reconstruct (cs ov : Nat) (f : List Char → List (List Char)) :
    ∀ (splits goods : List (List Char)),
      (∀ g ∈ goods, g ≠ [] ∧ g.length < cs ∧ ∀ c ∈ g, pyIsSpace c = false) →
      (∀ s ∈ splits, s ≠ [] ∧ ∀ c ∈ s, pyIsSpace c = false) →
      (∀ s ∈ splits, ¬ s.length < cs →
        ∃ ftrims, List.Forall₂ (fun t c => t <:+ c) ftrims (f s) ∧
          ftrims.head? = (f s).head? ∧ ftrims.flatten = s) →
      ∃ trims, List.Forall₂ (fun t c => t <:+ c) trims
          (processLoop cs ov f goods splits) ∧
        trims.head? = (processLoop cs ov f goods splits).head? ∧
        trims.flatten = goods.flatten ++ splits.flatten := by
  intro splits
  induction splits with
  | nil =>
    intro goods hg _ _
    rw [processLoop]
    by_cases hemp : goods.isEmpty
    · rw [if_pos hemp]
      have : goods = [] := by simpa using hemp
      subst this
      exact ⟨[], List.Forall₂.nil, rfl, rfl⟩
    · rw [if_neg hemp]
      unfold mergeSplits
      obtain ⟨trims, h1, h2, h3⟩ := mergeLoop_reconstruct cs ov goods [] []
        (by simp) (by simp) hg
      refine ⟨trims, h1, h2 rfl, ?_⟩
      rw [h3]
      simp
  | cons s rest ih =>
    intro goods hg hsp hfp
    rw [processLoop]
    by_cases hsl : s.length < cs
    · rw [if_pos hsl]
      obtain ⟨trims, h1, h2, h3⟩ := ih (goods ++ [s])
        (by
          intro g hgm
          rcases List.mem_append.mp hgm with h | h
          · exact hg g h
          · have hgs : g = s := by simpa using h
            rw [hgs]
            exact ⟨(hsp s (by simp)).1, hsl, (hsp s (by simp)).2⟩)
        (fun x hx => hsp x (List.mem_cons_of_mem s hx))
        (fun x hx => hfp x (List.mem_cons_of_mem s hx))
      refine ⟨trims, h1, h2, ?_⟩
      rw [h3]
      simp
    · rw [if_neg hsl]
      have hA : ∃ tA, List.Forall₂ (fun t c => t <:+ c) tA
          (if goods.isEmpty then [] else mergeSplits cs ov goods) ∧
          tA.head? = (if goods.isEmpty then []
            else mergeSplits cs ov goods).head? ∧
          tA.flatten = goods.flatten := by
        by_cases hemp : goods.isEmpty
        · rw [if_pos hemp]
          have : goods = [] := by simpa using hemp
          subst this
          exact ⟨[], List.Forall₂.nil, rfl, rfl⟩
        · rw [if_neg hemp]
          unfold mergeSplits
          obtain ⟨trims, h1, h2, h3⟩ := mergeLoop_reconstruct cs ov goods [] []
            (by simp) (by simp) hg
          refine ⟨trims, h1, h2 rfl, ?_⟩
          rw [h3]
          simp
      obtain ⟨tA, a1, a2, a3⟩ := hA
      obtain ⟨tB, b1, b2, b3⟩ := hfp s (by simp) hsl
      obtain ⟨tC, c1, c2, c3⟩ := ih [] (by simp)
        (fun x hx => hsp x (List.mem_cons_of_mem s hx))
        (fun x hx => hfp x (List.mem_cons_of_mem s hx))
      refine ⟨tA ++ tB ++ tC, ?_, ?_, ?_⟩
      · exact forall₂_append' (forall₂_append' a1 b1) c1
      · apply head?_append_congr
        · exact (forall₂_append' a1 b1).length_eq
        · apply head?_append_congr
          · exact a1.length_eq
          · exact a2
          · exact b2
        · exact c2
      · simp only [List.flatten_append]
        rw [a3, b3, c3]
        simp

theorem splitTextRec_reconstruct_chars (cs ov : Nat) (hcs : 1 < cs)
    (f : List Char → List (List Char)) (text : List Char)
    (hws : ∀ c ∈ text, pyIsSpace c = false) :
    ∃ trims, List.Forall₂ (fun t c => t <:+ c) trims
        (processLoop cs ov f [] (text.map (fun c => [c]))) ∧
      trims.head? =
        (processLoop cs ov f [] (text.map (fun c => [c]))).head? ∧
      trims.flatten = text := by
  obtain ⟨trims, h1, h2, h3⟩ := processLoop_reconstruct cs ov f
    (text.map (fun c => [c])) [] (by simp)
    (by
      intro s hsm
      rw [List.mem_map] at hsm
      obtain ⟨c, hcm, hc⟩ := hsm
      subst hc
      refine ⟨by simp, ?_⟩
      intro c' hc'
      have : c' = c := by simpa using hc'
      rw [this]
      exact hws c hcm)
    (by
      intro s hsm hbad
      exfalso
      apply hbad
      rw [List.mem_map] at hsm
      obtain ⟨c, _, hc⟩ := hsm
      subst hc
      simp only [List.length_singleton]
      omega)
  refine ⟨trims, h1, h2, ?_⟩
  rw [h3]
  simp [flatten_map_singleton]

theorem splitTextRec_reconstruct (cs ov : Nat) (hcs : 1 < cs) :
    ∀ (n : Nat) (seps : List (List Char)), seps.length ≤ n →
      ∀ text : List Char, (∀ c ∈ text, pyIsSpace c = false) →
        ∃ trims, List.Forall₂ (fun t c => t <:+ c) trims
            (splitTextRec cs ov seps text) ∧
          trims.head? = (splitTextRec cs ov seps text).head? ∧
          trims.flatten = text := by
  intro n
  induction n with
  | zero =>
    intro seps hlen text hws
    have hseps : seps = [] := List.length_eq_zero.mp (Nat.le_zero.mp hlen)
    subst hseps
    rw [splitTextRec_eq]
    have h1 : (chooseSep [] text).1 = [] := rfl
    rw [dif_pos h1]
    exact splitTextRec_reconstruct_chars cs ov hcs _ text hws
  | succ n ih =>
    intro seps hlen text hws
    rw [splitTextRec_eq]
    by_cases h1 : (chooseSep seps text).1 = []
    · rw [dif_pos h1]
      exact splitTextRec_reconstruct_chars cs ov hcs _ text hws
    · rw [dif_neg h1]
      have hfl := keepSepSplits_flatten (chooseSep seps text).1 h1 text
      have hnem := keepSepSplits_ne_nil_mem (chooseSep seps text).1 h1 text
      have hspl : ∀ s ∈ keepSepSplits (chooseSep seps text).1 h1 text,
          s ≠ [] ∧ ∀ c ∈ s, pyIsSpace c = false := by
        intro s hsm
        refine ⟨hnem s hsm, ?_⟩
        intro c hc
        apply hws
        rw [← hfl]
        exact mem_flatten_of_mem_mem hsm hc
      by_cases h2 : (chooseSep seps text).2 = []
      · rw [dif_pos h2]
        obtain ⟨trims, q1, q2, q3⟩ := processLoop_reconstruct cs ov
          (fun b => [b]) (keepSepSplits (chooseSep seps text).1 h1 text) []
          (by simp) hspl
          (fun s _ _ => ⟨[s], List.Forall₂.cons (List.suffix_refl s)
            List.Forall₂.nil, rfl, by simp⟩)
        refine ⟨trims, q1, q2, ?_⟩
        rw [q3]
        simpa using hfl
      · rw [dif_neg h2]
        have hlt := chooseSep_snd_length_lt seps text h2
        obtain ⟨trims, q1, q2, q3⟩ := processLoop_reconstruct cs ov
          (fun b => splitTextRec cs ov (chooseSep seps text).2 b)
          (keepSepSplits (chooseSep seps text).1 h1 text) []
          (by simp) hspl
          (fun s hsm _ => ih (chooseSep seps text).2 (by omega) s
            (fun c hc => (hspl s hsm).2 c hc))
        refine ⟨trims, q1, q2, ?_⟩
        rw [q3]
        simpa using hfl

theorem chunk_texts_small (text : List Char) (h : text.length ≤ 1200) :
    chunk_texts text = if (pyStrip text).isEmpty then [] else [pyStrip text] :=
  splitTextRec_small 1200 150 (by omega) chunkSeparators.length chunkSeparators
    le_rfl (by simp [chunkSeparators]) text h

theorem chunk_texts_single_a : chunk_texts ['a'] = [['a']] := by
  rw [chunk_texts_small ['a'] (by simp)]
  decide

/-- Witness for claim C9 at a concrete input. -/
theorem claim_C9_witness :
    ['a'] ∈ chunk_texts ['a'] ∧ (['a'] : List Char).length ≤ 1200 := by
  have hm : ['a'] ∈ chunk_texts ['a'] := by
    rw [chunk_texts_single_a]
    simp
  exact ⟨hm, claim_C9 ['a'] ['a'] hm⟩

/-- Claim C1 counterexample: for the non-empty string `" a"` the chunker
returns the single chunk `"a"` (whitespace is stripped), and no choice of
non-overlapping portions of `["a"]` concatenates to `" a"` — a character is
lost. -/
theorem claim_C1_counterexample :
    ¬ ReconstructsFrom (chunk_texts [' ', 'a']) [' ', 'a'] := by
  have he : chunk_texts [' ', 'a'] = [['a']] := by
    rw [chunk_texts_small [' ', 'a'] (by simp)]
    decide
  rw [he]
  rintro ⟨trims, hfa, hh, hfl⟩
  rw [List.forall₂_cons_right_iff] at hfa
  obtain ⟨t, ts, hsuf, htail, rfl⟩ := hfa
  rw [List.forall₂_nil_right_iff] at htail
  subst htail
  simp only [List.head?_cons, Option.some.injEq] at hh
  subst hh
  simp at hfl

/-- Claim C1 (amended): for every non-empty string that contains no
whitespace character, concatenating the non-overlapping portions of the
chunks returned by `chunk_texts` reconstructs the string exactly.  (For
strings containing whitespace the reconstruction can lose the whitespace
stripped at chunk boundaries, as the counterexample shows.) -/
theorem claim_C1_amended (text : List Char) (hne : text ≠ [])
    (hws : ∀ c ∈ text, pyIsSpace c = false) :
    ReconstructsFrom (chunk_texts text) text := by
  obtain ⟨trims, h1, h2, h3⟩ := splitTextRec_reconstruct 1200 150 (by omega)
    chunkSeparators.length chunkSeparators le_rfl text hws
  exact ⟨trims, h1, h2, h3⟩

/-- Witness for claim C1 (amended) at a concrete input. -/
theorem claim_C1_witness :
    (['a', 'b'] : List Char) ≠ [] ∧
    (∀ c ∈ (['a', 'b'] : List Char), pyIsSpace c = false) ∧
    ReconstructsFrom (chunk_texts ['a', 'b']) ['a', 'b'] :=
  ⟨by decide, by decide, claim_C1_amended ['a', 'b'] (by decide) (by decide)⟩

/-- Claim C6 counterexample: `" a"` is a 2-character string, yet
`chunk_texts " a"` is `["a"]`, not `[" a"]` — the splitter strips
whitespace, so the single chunk is not equal to the input. -/
theorem claim_C6_counterexample : chunk_texts [' ', 'a'] ≠ [[' ', 'a']] := by
  rw [chunk_texts_small [' ', 'a'] (by simp)]
  decide

/-- Claim C6 (amended): `chunk_texts ""` is empty, and for every string of
at most 1200 characters the result is exactly one chunk equal to the input
stripped of leading and trailing whitespace — or no chunk at all when the
input is whitespace-only. -/
theorem claim_C6_amended (text : List Char) (h : text.length ≤ 1200) :
    chunk_texts [] = [] ∧
    chunk_texts text =
      if (pyStrip text).isEmpty then [] else [pyStrip text] := by
  constructor
  · rw [chunk_texts_small [] (by simp)]
    rfl
  · exact chunk_texts_small text h

/-- Witness for claim C6 (amended) at a concrete input. -/
theorem claim_C6_witness :
    (['a'] : List Char).length ≤ 1200 ∧
    chunk_texts [] = [] ∧
    chunk_texts ['a'] =
      if (pyStrip ['a']).isEmpty then [] else [pyStrip ['a']] :=
  ⟨by simp, (claim_C6_amended ['a'] (by simp)).1, (claim_C6_amended ['a'] (by simp)).2⟩

theorem word_of_alnum {c : Char} (h : isAlnumCh c = true) : isWordCh c = true := by
  unfold isWordCh
  simp [h]

theorem alnum_of_word_not_underscore {c : Char} (hw : isWordCh c = true)
    (hu : c ≠ '_') : isAlnumCh c = true := by
  unfold isWordCh at hw
  simp only [Bool.or_eq_true] at hw
  rcases hw with h | h
  · exact h
  · simp at h
    exact absurd h hu

theorem subNonWord_word (l : List Char) : ∀ c ∈ subNonWord l, isWordCh c = true := by
  intro c hc
  unfold subNonWord at hc
  rw [List.mem_map] at hc
  obtain ⟨a, _, ha⟩ := hc
  by_cases hw : isWordCh a
  · rw [if_pos hw] at ha; rwa [← ha]
  · rw [if_neg hw] at ha; rw [← ha]; decide

theorem head?_append_left (x y : List Char) (hx : x ≠ []) :
    (x ++ y).head? = x.head? := by
  cases x with
  | nil => simp at hx
  | cons a t => rfl

theorem head?_take_pos (l : List Char) (n : Nat) (hn : 0 < n) :
    (l.take n).head? = l.head? := by
  cases l with
  | nil => simp
  | cons a rest =>
    cases n with
    | zero => omega
    | succ m => rfl

/-- Final length/edge adjustment of `_get_safe_collection_name`, given a
base string of at least 5 word characters with alphanumeric edges and a
hash of 8 alphanumeric characters. -/
theorem finishSafeName (h s1 : List Char)
    (hl8 : h.length = 8) (ha : ∀ c ∈ h, isAlnumCh c = true)
    (hw : ∀ c ∈ s1, isWordCh c = true)
    (hh : ∀ c ∈ s1.head?, isAlnumCh c = true)
    (hg : ∀ c ∈ s1.getLast?, isAlnumCh c = true)
    (hlen5 : 5 ≤ s1.length) :
    matchesIdRegex
      (if (dropEdgeNonAlnum s1).length < 3 then 'k' :: 'b' :: h
       else if (dropEdgeNonAlnum s1).length > 512 then
         (dropEdgeNonAlnum s1).take 500 ++ h
       else dropEdgeNonAlnum s1) := by
  have hne : h ≠ [] := by
    intro hcon
    rw [hcon] at hl8
    simp at hl8
  have hs2 : dropEdgeNonAlnum s1 = s1 := by
    unfold dropEdgeNonAlnum
    apply trimWhile_eq_self
    · intro c hc
      have := hh c hc
      simp [this]
    · intro c hc
      have := hg c hc
      simp [this]
  rw [hs2]
  rw [if_neg (by omega)]
  by_cases hbig : s1.length > 512
  · rw [if_pos hbig]
    have htl : (s1.take 500).length = 500 := by
      rw [List.length_take]
      omega
    have htne : s1.take 500 ≠ [] := by
      intro hcon
      rw [hcon] at htl
      simp at htl
    refine ⟨?_, ?_, ?_, ?_, ?_⟩
    · rw [List.length_append, htl, hl8]
      omega
    · rw [List.length_append, htl, hl8]
      omega
    · intro c hc
      rcases List.mem_append.mp hc with hc | hc
      · exact hw c (List.take_subset 500 s1 hc)
      · exact word_of_alnum (ha c hc)
    · rw [head?_append_left _ _ htne, head?_take_pos _ _ (by omega)]
      exact hh
    · rw [List.getLast?_append_of_ne_nil _ hne]
      intro c hc
      exact ha c (mem_of_mem_getLast?' h c hc)
  · rw [if_neg hbig]
    exact ⟨by omega, by omega, hw, hh, hg⟩

/-- Claim C2: the collection-identifier derivation is deterministic (a pure
function of its input path), and for every md5 truncation behaviour (8
alphanumeric characters, as an 8-character lowercase-hex prefix always is)
and every vector-directory path, the derived identifier matches
`^[a-zA-Z0-9][a-zA-Z0-9_]{1,510}[a-zA-Z0-9]$`. -/
theorem claim_C2 (md5_8 : List Char → List Char)
    (hlen : ∀ s, (md5_8 s).length = 8)
    (halnum : ∀ s, ∀ c ∈ md5_8 s, isAlnumCh c = true)
    (persist_dir : List Char) :
    _get_safe_collection_name md5_8 persist_dir =
      _get_safe_collection_name md5_8 persist_dir ∧
    matchesIdRegex (_get_safe_collection_name md5_8 persist_dir) := by
  refine ⟨rfl, ?_⟩
  unfold _get_safe_collection_name
  dsimp only
  have hl8 := hlen (basename persist_dir)
  have ha := halnum (basename persist_dir)
  have hne : md5_8 (basename persist_dir) ≠ [] := by
    intro hcon
    rw [hcon] at hl8
    simp at hl8
  have hashCase : ∀ s0 : List Char, s0 = md5_8 (basename persist_dir) →
      matchesIdRegex
        (if (dropEdgeNonAlnum ('k' :: 'b' :: '_' :: s0)).length < 3 then
          'k' :: 'b' :: md5_8 (basename persist_dir)
         else if (dropEdgeNonAlnum ('k' :: 'b' :: '_' :: s0)).length > 512 then
          (dropEdgeNonAlnum ('k' :: 'b' :: '_' :: s0)).take 500 ++
            md5_8 (basename persist_dir)
         else dropEdgeNonAlnum ('k' :: 'b' :: '_' :: s0)) := by
    intro s0 hs0
    subst hs0
    apply finishSafeName _ _ hl8 ha
    · intro c hc
      simp only [List.mem_cons] at hc
      rcases hc with rfl | rfl | rfl | hc
      · decide
      · decide
      · decide
      · exact word_of_alnum (ha c hc)
    · intro c hc
      simp only [List.head?_cons, Option.mem_def, Option.some.injEq] at hc
      subst hc
      decide
    · show ∀ c ∈ (['k', 'b', '_'] ++ md5_8 (basename persist_dir)).getLast?, _
      rw [List.getLast?_append_of_ne_nil _ hne]
      intro c hc
      exact ha c (mem_of_mem_getLast?' _ c hc)
    · simp only [List.length_cons, hl8]
      omega
  by_cases hA : pyIsAsciiStr (basename persist_dir) = true
  · rw [hA]
    simp only [Bool.not_true, Bool.false_eq_true, if_false]
    by_cases hT : (stripUnderscore (subNonWord (basename persist_dir))).length < 2
    · rw [if_pos hT]
      exact hashCase _ rfl
    · rw [if_neg hT]
      set t := stripUnderscore (subNonWord (basename persist_dir)) with hdeft
      have htw : ∀ c ∈ t, isWordCh c = true := by
        intro c hc
        exact subNonWord_word _ c (trimWhile_mem _ _ c hc)
      have htne : t ≠ [] := by
        intro hcon
        rw [hcon] at hT
        simp at hT
      apply finishSafeName _ _ hl8 ha
      · intro c hc
        simp only [List.mem_cons] at hc
        rcases hc with rfl | rfl | rfl | hc
        · decide
        · decide
        · decide
        · exact htw c hc
      · intro c hc
        simp only [List.head?_cons, Option.mem_def, Option.some.injEq] at hc
        subst hc
        decide
      · show ∀ c ∈ (['k', 'b', '_'] ++ t).getLast?, _
        rw [List.getLast?_append_of_ne_nil _ htne]
        intro c hc
        have hcu : decide (c = '_') = false :=
          trimWhile_getLast (fun c => c = '_') (subNonWord (basename persist_dir)) c hc
        refine alnum_of_word_not_underscore
          (htw c (mem_of_mem_getLast?' _ c hc)) ?_
        simpa using hcu
      · simp only [List.length_cons]
        omega
  · rw [(by simpa using hA : pyIsAsciiStr (basename persist_dir) = false)]
    simp only [Bool.not_false, if_true]
    exact hashCase _ rfl

/-- Witness for claim C2 at a concrete md5 stand-in and path. -/
theorem claim_C2_witness :
    _get_safe_collection_name (fun _ => ['a', 'b', 'c', 'd', 'e', 'f', '0', '1'])
        ['p'] =
      _get_safe_collection_name (fun _ => ['a', 'b', 'c', 'd', 'e', 'f', '0', '1'])
        ['p'] ∧
    matchesIdRegex (_get_safe_collection_name
      (fun _ => ['a', 'b', 'c', 'd', 'e', 'f', '0', '1']) ['p']) :=
  claim_C2 (fun _ => ['a', 'b', 'c', 'd', 'e', 'f', '0', '1'])
    (fun _ => rfl) (fun _ => by intro c hc; fin_cases hc <;> decide) ['p']

theorem enumMap_renderDoc (docs : List RDoc) :
    docs.enum.map (fun p => renderDoc p.1 p.2) =
    (List.range docs.length).map (fun j =>
      specChunkRender (j + 1) (metaSourceGet (docs.getD j defaultRDoc))
        (docs.getD j defaultRDoc).page_content) := by
  apply List.ext_getElem
  · simp
  · intro i h1 h2
    simp only [List.getElem_map, List.getElem_enum, List.getElem_range]
    have hi : i < docs.length := by simpa using h2
    have hd : docs.getD i defaultRDoc = docs[i] := by
      simp [List.getD, List.getElem?_eq_getElem hi]
    rw [hd]
    simp [renderDoc, specChunkRender]

/-- Claim C7: the context block renders the i-th retrieved chunk (1-based,
in retrieval order) as `[i] (source_path)`, a newline and the chunk text,
joined with blank lines — exactly the spec's rendering — and the returned
sources list is built from the same retrieved chunks in the same order,
each entry holding the chunk's source path and a snippet of at most 300
characters of its text. -/
theorem claim_C7 (llm : List Char → List Char) (docs : List RDoc)
    (question : List Char) :
    buildContext docs = specContextBlock docs ∧
    (answer_question llm docs question).2 = buildSources docs ∧
    List.Forall₂ (fun (d : RDoc) (s : List Char × List Char) =>
        s.1 = metaSourceGet d ∧ s.2 = d.page_content.take 300 ∧ s.2.length ≤ 300)
      docs (answer_question llm docs question).2 := by
  refine ⟨?_, rfl, ?_⟩
  · unfold buildContext specContextBlock
    rw [enumMap_renderDoc]
  · show List.Forall₂ _ docs (buildSources docs)
    unfold buildSources
    rw [List.forall₂_map_right_iff]
    apply List.forall₂_same.mpr
    intro d hd
    refine ⟨rfl, rfl, ?_⟩
    simpa using List.length_take_le 300 d.page_content

theorem cloneLoopFrom_libCalls_le (outcome : Nat → CloneOutcome) (u : Nat → ℚ)
    (cliOk : Bool) :
    ∀ r a : Nat, (cloneLoopFrom outcome u cliOk r a).libCalls ≤ r := by
  intro r
  induction r with
  | zero => intro a; simp [cloneLoopFrom]
  | succ n ih =>
    intro a
    unfold cloneLoopFrom
    cases outcome a with
    | success => simp
    | gitCommandError =>
      dsimp only
      split
      · simp
      · dsimp only
        have := ih (a + 1)
        omega
    | otherError =>
      dsimp only
      split
      · simp
      · dsimp only
        have := ih (a + 1)
        omega

theorem cloneLoopFrom_gitWaits (outcome : Nat → CloneOutcome) (u : Nat → ℚ)
    (cliOk : Bool) :
    ∀ (r a : Nat) (p : Nat × ℤ),
      p ∈ (cloneLoopFrom outcome u cliOk r a).gitWaits →
      p.2 = _optimize_retry_strategy p.1 (u p.1) := by
  intro r
  induction r with
  | zero => intro a p hp; simp [cloneLoopFrom] at hp
  | succ n ih =>
    intro a p hp
    unfold cloneLoopFrom at hp
    cases houtcome : outcome a with
    | success => rw [houtcome] at hp; simp at hp
    | gitCommandError =>
      rw [houtcome] at hp
      dsimp only at hp
      by_cases hn : n = 0
      · rw [if_pos hn] at hp; simp at hp
      · rw [if_neg hn] at hp
        dsimp only at hp
        rcases List.mem_cons.mp hp with h | h
        · subst h; rfl
        · exact ih (a + 1) p h
    | otherError =>
      rw [houtcome] at hp
      dsimp only at hp
      by_cases hn : n = 0
      · rw [if_pos hn] at hp; simp at hp
      · rw [if_neg hn] at hp
        dsimp only at hp
        exact ih (a + 1) p hp

/-- Claim C4 counterexample: at attempt 0 with jitter draw u = 0.8 the code
sleeps `int(min(60, 2*2^0) * 0.8) = int(1.6) = 1` second, and 1 equals
`min(60, 2*2^0) * u'` for no `u'` in `[0.8, 1.2]`: the `int()` truncation
makes the actual sleep differ from the claimed delay for every admissible
jitter value. -/
theorem claim_C4_counterexample :
    ((0, (1 : ℤ)) ∈ (ingestCloneTrace
        (fun a => if a = 0 then CloneOutcome.gitCommandError else CloneOutcome.success)
        (fun _ => 4 / 5) true).gitWaits) ∧
    ∀ u' : ℚ, 4 / 5 ≤ u' → u' ≤ 6 / 5 →
      ((1 : ℤ) : ℚ) ≠ min 60 (2 * 2 ^ (0 : Nat)) * u' := by
  constructor
  · have hopt : _optimize_retry_strategy 0 (4 / 5) = 1 := by
      unfold _optimize_retry_strategy pyInt
      rw [pow_zero, mul_one, min_eq_right (by norm_num : (2 : ℚ) ≤ 60)]
      rw [if_pos (by norm_num : (0 : ℚ) ≤ 2 * (4 / 5))]
      rw [show (2 : ℚ) * (4 / 5) = 8 / 5 by norm_num]
      rw [Int.floor_eq_iff]
      constructor <;> norm_num
    have htr : (ingestCloneTrace
        (fun a => if a = 0 then CloneOutcome.gitCommandError else CloneOutcome.success)
        (fun _ => 4 / 5) true).gitWaits = [(0, _optimize_retry_strategy 0 (4 / 5))] := rfl
    rw [htr, hopt]
    exact List.mem_singleton.mpr rfl
  · intro u' hu1 hu2 heq
    rw [pow_zero, mul_one, min_eq_right (by norm_num : (2 : ℚ) ≤ 60)] at heq
    push_cast at heq
    nlinarith

/-- Claim C4 (amended): the loop makes at most 3 library-level clone
attempts in total, and each `GitCommandError` retry at attempt `i` sleeps
`int(min(60, 2*2^i) * u_i)` seconds — the integer truncation of the
jittered exponential-backoff delay, for the drawn jitter `u_i`. -/
theorem claim_C4_amended (outcome : Nat → CloneOutcome) (u : Nat → ℚ) (cliOk : Bool) :
    (ingestCloneTrace outcome u cliOk).libCalls ≤ 3 ∧
    ∀ p : Nat × ℤ, p ∈ (ingestCloneTrace outcome u cliOk).gitWaits →
      p.2 = pyInt (min 60 (2 * 2 ^ p.1) * u p.1) :=
  ⟨cloneLoopFrom_libCalls_le outcome u cliOk 3 0,
   fun p hp => cloneLoopFrom_gitWaits outcome u cliOk 3 0 p hp⟩

/-- Witness for claim C4 (amended) on a concrete run: first attempt fails
with a `GitCommandError`, second succeeds; two library calls are made and
the one retry sleep is `int(min(60, 2)*1) = 2` seconds. -/
theorem claim_C4_witness :
    (ingestCloneTrace (fun a => if a = 0 then CloneOutcome.gitCommandError
        else CloneOutcome.success) (fun _ => 1) true).libCalls ≤ 3 ∧
    ((0, (2 : ℤ)) ∈ (ingestCloneTrace (fun a => if a = 0 then CloneOutcome.gitCommandError
        else CloneOutcome.success) (fun _ => 1) true).gitWaits ∧
      (2 : ℤ) = pyInt (min 60 (2 * 2 ^ (0 : Nat)) * (1 : ℚ))) := by
  have hopt : _optimize_retry_strategy 0 (1 : ℚ) = 2 := by
    unfold _optimize_retry_strategy pyInt
    rw [pow_zero, mul_one, mul_one, min_eq_right (by norm_num : (2 : ℚ) ≤ 60)]
    rw [if_pos (by norm_num : (0 : ℚ) ≤ 2)]
    rw [show ((2 : ℚ)) = ((2 : ℤ) : ℚ) by norm_num, Int.floor_intCast]
  have htr : (ingestCloneTrace
      (fun a => if a = 0 then CloneOutcome.gitCommandError else CloneOutcome.success)
      (fun _ => 1) true).gitWaits = [(0, _optimize_retry_strategy 0 (1 : ℚ))] := rfl
  have hmem : (0, (2 : ℤ)) ∈ (ingestCloneTrace
      (fun a => if a = 0 then CloneOutcome.gitCommandError else CloneOutcome.success)
      (fun _ => 1) true).gitWaits := by
    rw [htr, hopt]
    exact List.mem_singleton.mpr rfl
  exact ⟨(claim_C4_amended _ _ _).1, hmem, (claim_C4_amended _ _ _).2 (0, 2) hmem⟩

/-- Claim C10 counterexample: with non-empty credentials and the `@`-free
URL `https://a/https://b`, the code rewrites BOTH occurrences of
`https://`, not only the leading one, so the result differs from the
prefix-only rewrite described by the claim. -/
theorem claim_C10_counterexample :
    buildCloneUrl (some ['u']) (some ['t'])
        (httpsScheme ++ ['a', '/'] ++ httpsScheme ++ ['b']) ≠
      credUrl ['u'] ['t'] ++ (['a', '/'] ++ httpsScheme ++ ['b']) := by
  decide

/-- Claim C10 (amended): the URL is left unchanged unless username and
token are both provided and non-empty, the URL starts with `https://` and
contains no `@`; in that case every occurrence of `https://` — in
particular the leading one — is replaced by `https://username:token@`. -/
theorem claim_C10_amended :
    (∀ (username token : Option (List Char)) (repo_url : List Char),
      ¬(pyTruthy username = true ∧ pyTruthy token = true ∧
          httpsScheme.isPrefixOf repo_url = true ∧ repo_url.contains '@' = false) →
        buildCloneUrl username token repo_url = repo_url) ∧
    (∀ uu tt rest : List Char,
      uu ≠ [] → tt ≠ [] → (httpsScheme ++ rest).contains '@' = false →
        buildCloneUrl (some uu) (some tt) (httpsScheme ++ rest) =
          credUrl uu tt ++ replaceHttps (credUrl uu tt) rest) := by
  constructor
  · intro username token repo_url h
    have hc : ¬(pyTruthy username && pyTruthy token &&
        httpsScheme.isPrefixOf repo_url && !(repo_url.contains '@')) = true := by
      simp only [Bool.and_eq_true, Bool.not_eq_true']
      rintro ⟨⟨⟨h1, h2⟩, h3⟩, h4⟩
      exact h ⟨h1, h2, h3, h4⟩
    unfold buildCloneUrl
    rw [if_neg hc]
  · intro uu tt rest huu htt hat
    have h1 : pyTruthy (some uu) = true := by
      simp [pyTruthy, huu]
    have h2 : pyTruthy (some tt) = true := by
      simp [pyTruthy, htt]
    have h3 : httpsScheme.isPrefixOf (httpsScheme ++ rest) = true :=
      isPrefixOf_append_self httpsScheme rest
    unfold buildCloneUrl
    rw [if_pos (by rw [h1, h2, h3, hat]; rfl)]
    rfl

/-- Witness for claim C10 (amended) at concrete inputs: a URL with no
credentials is unchanged, and a credentialled `https://a` is rewritten. -/
theorem claim_C10_amended_witness :
    buildCloneUrl none none ['x'] = ['x'] ∧
    buildCloneUrl (some ['u']) (some ['t']) (httpsScheme ++ ['a']) =
      credUrl ['u'] ['t'] ++ replaceHttps (credUrl ['u'] ['t']) ['a'] :=
  ⟨claim_C10_amended.1 none none ['x'] (by simp [pyTruthy]),
   claim_C10_amended.2 ['u'] ['t'] ['a'] (by decide) (by decide) (by decide)⟩

end RAGBase
